import Mathlib

/-!
Verification of the Cherri surface grammar (tree-sitter rule table in
`src/grammar.js`) via a shallow embedding of the parser that the rule table
implies: a lexer handling whitespace/comment trivia, string interpolation,
`@`-variables and the reserved vocabulary, plus a precedence-climbing
expression parser and a statement parser with the grammar's disambiguation
rules (dictionary precedence over block, three `repeat` variants,
right-associative dangling-`else`).

All definitions are fuelled or structurally recursive so the kernel can
evaluate them on concrete inputs.
-/

namespace Cherri

/-! ## The precedence table (grammar.js, `const PREC`) -/

namespace PREC

def ASSIGN : Nat := 1

def OR : Nat := 2

def AND : Nat := 3

def EQUALITY : Nat := 4

def RELATIONAL : Nat := 5

def SUM : Nat := 6

def PRODUCT : Nat := 7

def CALL : Nat := 8

def STATEMENT : Nat := 10

def DICTIONARY : Nat := 11

end PREC

/-! ## Characters

Named constants for characters that are awkward to spell as literals. -/

def dq : Char := Char.ofNat 34

def sq : Char := Char.ofNat 39

def bsl : Char := Char.ofNat 92

def lbr : Char := Char.ofNat 123

def rbr : Char := Char.ofNat 125

/-- Whitespace characters of the `extras` rule (`/\s+/`), restricted to the
set that the `at_variable` regex `/@[^ \t\n\r:]+/` also names. -/
def wsChar (c : Char) : Bool :=
  c = ' ' || c = Char.ofNat 9 || c = Char.ofNat 10 || c = Char.ofNat 13

def nl : Char := Char.ofNat 10

/-- First character of `identifier` (`/[A-Za-z_][A-Za-z0-9_]*/`). -/
def identStart (c : Char) : Bool := c.isAlpha || c = '_'

/-- Continuation character of `identifier`. -/
def identChar (c : Char) : Bool := identStart c || c.isDigit

/-- Characters allowed after `@` in `at_variable` (`/@[^ \t\n\r:]+/`):
everything except the four whitespace characters and `:`.  Note that `=` is
allowed by the regex. -/
def atChar (c : Char) : Bool := !(wsChar c) && !(c = ':')

/-! ## Tokens -/

/-- One part of a double- or single-quoted string: a maximal literal run
(`string_content`, `/[^"\\\x7b]+/`), an escape sequence (`"\\"` then one
character), or an interpolation span (`"\x7b"`, then `/[^\x7d]/*`, then
`"\x7d"`). -/
inductive StrPart where
  | content (cs : List Char)
  | escape (c : Char)
  | interpolation (cs : List Char)
deriving DecidableEq, Repr

/-- Tokens of the Cherri lexer.  Reserved spellings (statement keywords,
builtin keywords, type names, named constants, booleans) are classified at
the lexer level, matching the grammar's `word: identifier` keyword
extraction and the TextMate-derived closed sets. -/
inductive Tok where
  | ident (s : List Char)
  | atVar (s : List Char)
  | number (s : List Char)
  | str (parts : List StrPart)
  | sqStr (parts : List StrPart)
  | pragmaDir (s : List Char)
  | keyword (s : List Char)
  | typeName (s : List Char)
  | namedConst (s : List Char)
  | boolTrue
  | boolFalse
  | kwIf
  | kwElse
  | kwFor
  | kwIn
  | kwRepeat
  | kwMenu
  | kwItem
  | kwConst
  | lparen
  | rparen
  | lbrace
  | rbrace
  | comma
  | colon
  | eq
  | eqeq
  | neq
  | lt
  | gt
  | le
  | ge
  | plus
  | minus
  | star
  | slash
deriving DecidableEq, Repr

/-- The sixteen builtin keywords of the `keyword` rule. -/
def isBuiltinKeyword (w : List Char) : Bool :=
  w = "name".data || w = "glyph".data || w = "from".data || w = "mac".data ||
  w = "inputs".data || w = "noinput".data || w = "askfor".data ||
  w = "getclipboard".data || w = "list".data || w = "nil".data ||
  w = "action".data || w = "stop".data || w = "makeVCard".data ||
  w = "rawAction".data || w = "embedFile".data || w = "nothing".data

/-- The eight type names of the `type_name` rule. -/
def isTypeName (w : List Char) : Bool :=
  w = "text".data || w = "number".data || w = "bool".data ||
  w = "dictionary".data || w = "array".data || w = "variable".data ||
  w = "color".data || w = "float".data

/-- The six named constants of the `named_constant` rule. -/
def isNamedConst (w : List Char) : Bool :=
  w = "CurrentDate".data || w = "Device".data || w = "RepeatIndex".data ||
  w = "RepeatItem".data || w = "ShortcutInput".data || w = "Ask".data

/-- The statement keywords and boolean literals, each an anonymous string
token of its grammar rule. -/
def reservedWords : List (List Char × Tok) :=
  [("if".data, .kwIf), ("else".data, .kwElse), ("for".data, .kwFor),
   ("in".data, .kwIn), ("repeat".data, .kwRepeat), ("menu".data, .kwMenu),
   ("item".data, .kwItem), ("const".data, .kwConst), ("true".data, .boolTrue),
   ("false".data, .boolFalse)]

/-- Look a word up in an association list. -/
def lookupWord (w : List Char) : List (List Char × Tok) → Option Tok
  | [] => none
  | p :: r => if w = p.1 then some p.2 else lookupWord w r

/-- Classify an identifier-shaped word against the reserved vocabulary. -/
def classify (w : List Char) : Tok :=
  match lookupWord w reservedWords with
  | some t => t
  | none =>
    if isBuiltinKeyword w then .keyword w
    else if isTypeName w then .typeName w
    else if isNamedConst w then .namedConst w
    else .ident w

/-! ## Trivia skipping

The `extras` rule: whitespace and both comment forms (`comment` rule:
`//` to end of line, `/*` to the first `*/`, error if unterminated). -/

inductive TMode where
  | top
  | line
  | block
deriving DecidableEq, Repr

/-- Skip leading trivia.  `none` on an unterminated block comment. -/
def skipTriviaGo : TMode → List Char → Option (List Char)
  | .top, [] => some []
  | .top, c :: r =>
    if wsChar c then skipTriviaGo .top r
    else if c = '/' then
      match r with
      | c2 :: r2 =>
        if c2 = '/' then skipTriviaGo .line r2
        else if c2 = '*' then skipTriviaGo .block r2
        else some (c :: c2 :: r2)
      | [] => some (c :: r)
    else some (c :: r)
  | .line, [] => some []
  | .line, c :: r => if c = nl then skipTriviaGo .top r else skipTriviaGo .line r
  | .block, [] => none
  | .block, c :: r =>
    if c = '*' then
      match r with
      | c2 :: r2 => if c2 = '/' then skipTriviaGo .top r2 else skipTriviaGo .block (c2 :: r2)
      | [] => none
    else skipTriviaGo .block r

/-! ## String literal scanning -/

/-- Push the pending content run (if nonempty) as a `content` part. -/
def flushContent (acc : List Char) (parts : List StrPart) : List StrPart :=
  if acc = [] then parts else .content acc.reverse :: parts

/-- Scanning state inside a double-quoted string: plain content, inside
an interpolation span, or just after a backslash. -/
inductive SMode where
  | normal
  | interp
  | esc
deriving DecidableEq, Repr

/-- Scan the interior of a double-quoted string (`string` rule).
`acc` accumulates the current run reversed; `parts` accumulates completed
parts reversed.  Returns the parts in order and the input after the
closing quote; `none` on an unterminated string, a bare trailing
backslash, or an escaped newline (the `escape_sequence` regex `/./` does
not match a newline). -/
def lexStrGo (m : SMode) (acc : List Char) (parts : List StrPart) :
    List Char → Option (List StrPart × List Char)
  | [] => none
  | c :: r =>
    match m with
    | .interp =>
      if c = rbr then lexStrGo .normal [] (.interpolation acc.reverse :: parts) r
      else lexStrGo .interp (c :: acc) parts r
    | .esc =>
      if c = nl then none else lexStrGo .normal [] (.escape c :: parts) r
    | .normal =>
      if c = dq then some ((flushContent acc parts).reverse, r)
      else if c = bsl then lexStrGo .esc [] (flushContent acc parts) r
      else if c = lbr then lexStrGo .interp [] (flushContent acc parts) r
      else lexStrGo .normal (c :: acc) parts r

/-- Scan the interior of a single-quoted string (`single_quoted_string`
rule): literal runs of non-quote non-backslash characters plus escape
sequences; no interpolation.  `esc` is true just after a backslash. -/
def lexSqGo (esc : Bool) (acc : List Char) (parts : List StrPart) :
    List Char → Option (List StrPart × List Char)
  | [] => none
  | c :: r =>
    if esc then
      if c = nl then none else lexSqGo false [] (.escape c :: parts) r
    else if c = sq then some ((flushContent acc parts).reverse, r)
    else if c = bsl then lexSqGo true [] (flushContent acc parts) r
    else lexSqGo false (c :: acc) parts r

/-! ## Single-token lexing -/

/-- Drop an exact expected prefix. -/
def dropExact : List Char → List Char → Option (List Char)
  | [], s => some s
  | c :: p, d :: s => if c = d then dropExact p s else none
  | _ :: _, [] => none

/-- Lex a pragma directive after the leading `#`: one of the four exact
spellings of the `pragma_directive` rule. -/
def lexPragma (cs : List Char) : Option (Tok × List Char) :=
  match dropExact "include".data cs with
  | some r => some (.pragmaDir "#include".data, r)
  | none =>
    match dropExact "define".data cs with
    | some r => some (.pragmaDir "#define".data, r)
    | none =>
      match dropExact "import".data cs with
      | some r => some (.pragmaDir "#import".data, r)
      | none =>
        match dropExact "question".data cs with
        | some r => some (.pragmaDir "#question".data, r)
        | none => none

/-- Lex an identifier-shaped word (`/[A-Za-z_][A-Za-z0-9_]*/`) and
classify it against the reserved vocabulary. -/
def lexWord (s : List Char) : Option (Tok × List Char) :=
  some (classify (List.takeWhile identChar s), List.dropWhile identChar s)

/-- Lex a number (`/[0-9]+(\.[0-9]+)?/`, maximal munch: the fractional
part is taken only when at least one digit follows the dot). -/
def lexNum (s : List Char) : Option (Tok × List Char) :=
  match List.dropWhile Char.isDigit s with
  | c2 :: r2 =>
    if c2 = '.' then
      if List.takeWhile Char.isDigit r2 = [] then
        some (.number (List.takeWhile Char.isDigit s), c2 :: r2)
      else
        some (.number (List.takeWhile Char.isDigit s ++ '.' :: List.takeWhile Char.isDigit r2),
          List.dropWhile Char.isDigit r2)
    else some (.number (List.takeWhile Char.isDigit s), c2 :: r2)
  | [] => some (.number (List.takeWhile Char.isDigit s), [])

/-- Lex an `at_variable` after the leading `@`: one or more characters
from the allowed set. -/
def lexAt (cs : List Char) : Option (Tok × List Char) :=
  if List.takeWhile atChar cs = [] then none
  else some (.atVar ('@' :: List.takeWhile atChar cs), List.dropWhile atChar cs)

/-- Lex a double-quoted string after the opening quote. -/
def lexStrTok (cs : List Char) : Option (Tok × List Char) :=
  match lexStrGo .normal [] [] cs with
  | some (ps, r) => some (.str ps, r)
  | none => none

/-- Lex a single-quoted string after the opening quote. -/
def lexSqTok (cs : List Char) : Option (Tok × List Char) :=
  match lexSqGo false [] [] cs with
  | some (ps, r) => some (.sqStr ps, r)
  | none => none

/-- The single-character operator and punctuation tokens without a
two-character extension. -/
def opToks : List (Char × Tok) :=
  [('+', .plus), ('-', .minus), ('*', .star), ('/', .slash),
   ('(', .lparen), (')', .rparen), (',', .comma), (':', .colon)]

/-- Look a character up in an association list. -/
def lookupChar (c : Char) : List (Char × Tok) → Option Tok
  | [] => none
  | p :: r => if c = p.1 then some p.2 else lookupChar c r

/-- Lex an operator or punctuation token, longest match first for the
two-character operators `==`, `!=`, `<=`, `>=` (a bare `!` matches no
token). -/
def lexOp (c : Char) (cs : List Char) : Option (Tok × List Char) :=
  if c = '=' then
    match cs with
    | c2 :: r2 => if c2 = '=' then some (.eqeq, r2) else some (.eq, c2 :: r2)
    | [] => some (.eq, [])
  else if c = '!' then
    match cs with
    | c2 :: r2 => if c2 = '=' then some (.neq, r2) else none
    | [] => none
  else if c = '<' then
    match cs with
    | c2 :: r2 => if c2 = '=' then some (.le, r2) else some (.lt, c2 :: r2)
    | [] => some (.lt, [])
  else if c = '>' then
    match cs with
    | c2 :: r2 => if c2 = '=' then some (.ge, r2) else some (.gt, c2 :: r2)
    | [] => some (.gt, [])
  else
    match lookupChar c opToks with
    | some t => some (t, cs)
    | none => none

/-- Lex a brace or fall back to operators and punctuation. -/
def lexPunct (c : Char) (cs : List Char) : Option (Tok × List Char) :=
  if c = lbr then some (.lbrace, cs)
  else if c = rbr then some (.rbrace, cs)
  else lexOp c cs

/-- Lex a token that does not start with an identifier or digit
character: strings, `@`-variables, pragma directives, punctuation. -/
def lexSym (c : Char) (cs : List Char) : Option (Tok × List Char) :=
  if c = dq then lexStrTok cs
  else if c = sq then lexSqTok cs
  else if c = '@' then lexAt cs
  else if c = '#' then lexPragma cs
  else lexPunct c cs

/-- Lex one token from trivia-free input.  Follows the token rules of the
grammar: identifiers and reserved words, numbers, `@`-variables, pragma
directives, both string forms, and the operators and punctuation. -/
def lexTok : List Char → Option (Tok × List Char)
  | [] => none
  | c :: cs =>
    if identStart c then lexWord (c :: cs)
    else if c.isDigit then lexNum (c :: cs)
    else lexSym c cs

/-! ## Tokenizing a whole input -/

/-- Tokenize with fuel (one unit per token).  `none` on a lexing error. -/
def tokenizeF : Nat → List Char → Option (List Tok)
  | 0, _ => none
  | f + 1, s =>
    match skipTriviaGo .top s with
    | none => none
    | some [] => some []
    | some (c :: s2) =>
      match lexTok (c :: s2) with
      | none => none
      | some (t, r) =>
        match tokenizeF f r with
        | some ts => some (t :: ts)
        | none => none

/-- Tokenize a string with sufficient fuel. -/
def tokenizeAll (s : String) : Option (List Tok) :=
  tokenizeF (s.data.length + 1) s.data

/-! ## The node model

One variant per grammar rule, with the grammar's field labels as
arguments.  `repeat_statement` keeps its three shapes as three variants.
Dictionary keys are stored as general expressions; the parser only ever
builds `str` or `ident` keys (the `dictionary_pair` rule's
`field("key", choice($.string, $.identifier))`). -/

inductive Expr where
  | binary (op : Tok) (l r : Expr)
  | call (fn : Expr) (args : List Expr)
  | paren (e : Expr)
  | dict (pairs : List (Expr × Expr))
  | ident (s : List Char)
  | atVar (s : List Char)
  | num (s : List Char)
  | str (parts : List StrPart)
  | sqStr (parts : List StrPart)
  | boolean (b : Bool)
  | namedConst (s : List Char)
  | keyword (s : List Char)
  | typeName (s : List Char)
deriving Repr

inductive Stmt where
  | pragma (directive : List Char) (value : Expr)
  | assign (constMod : Bool) (name : Expr) (value : Expr)
  | decl (name : List Char) (type : Expr)
  | ifStmt (condition : Expr) (consequence : Stmt) (alternative : Option Stmt)
  | forStmt (var : List Char) (iterable : Expr) (body : Stmt)
  | repeatVar (var : List Char) (count : Expr) (body : Stmt)
  | repeatCount (count : Expr) (body : Stmt)
  | repeatBare (body : Stmt)
  | menu (title : Option Expr) (body : Stmt)
  | item (title : Expr) (body : Stmt)
  | block (stmts : List Stmt)
  | exprStmt (e : Expr)
deriving Repr

/-! ## The expression and statement parser

A deterministic embedding of the rule table.  `choice` alternatives are
tried in the grammar's order except where the grammar's precedence
annotations dictate otherwise: a brace in any position where both
`dictionary` (prec 11) and `block` (prec 1) could start is tried as a
dictionary first and as a block only if the dictionary interpretation
fails.  `binary_expression` is precedence climbing with the `PREC` values;
all binary operators are `prec.left`, realised by parsing the right
operand at precedence one above the operator.  `if_statement` is
`prec.right`, realised by the consequence consuming a following `else`
greedily (nearest unmatched `if`).  The `repeat` variants are chosen by
the grammar's order: identifier-then-`for` lookahead first, then
count-and-body, then bare body. -/

/-- Binary operator of the `binary_expression` rule for a leading token,
with its precedence. -/
def binOpPrec : Tok → Option Nat
  | .star => some PREC.PRODUCT
  | .slash => some PREC.PRODUCT
  | .plus => some PREC.SUM
  | .minus => some PREC.SUM
  | .eqeq => some PREC.EQUALITY
  | .neq => some PREC.EQUALITY
  | .lt => some PREC.RELATIONAL
  | .gt => some PREC.RELATIONAL
  | .le => some PREC.RELATIONAL
  | .ge => some PREC.RELATIONAL
  | _ => none

/-- Pragma `value` field: one of string, single-quoted string, identifier,
builtin keyword, type name. -/
def pragmaValue : Tok → Option Expr
  | .str ps => some (.str ps)
  | .sqStr ps => some (.sqStr ps)
  | .ident s => some (.ident s)
  | .keyword s => some (.keyword s)
  | .typeName s => some (.typeName s)
  | _ => none

/-- Dictionary `key` field: a double-quoted string or a bare identifier. -/
def keyExpr : Tok → Option Expr
  | .str ps => some (.str ps)
  | .ident s => some (.ident s)
  | _ => none

mutual

/-- `source_file`: a sequence of statements to end of input. -/
def parseProgram : Nat → List Tok → Option (List Stmt)
  | 0, _ => none
  | _ + 1, [] => some []
  | f + 1, ts =>
    match parseStmt f ts with
    | some (st, r) =>
      match parseProgram f r with
      | some l => some (st :: l)
      | none => none
    | none => none

/-- Statements until the closing brace of a `block` (consumes it). -/
def parseBlockBody : Nat → List Tok → Option (List Stmt × List Tok)
  | 0, _ => none
  | _ + 1, .rbrace :: r => some ([], r)
  | f + 1, ts =>
    match parseStmt f ts with
    | some (st, r) =>
      match parseBlockBody f r with
      | some (l, r2) => some (st :: l, r2)
      | none => none
    | none => none

/-- `_statement`: dispatch on the leading token, in the grammar's choice
order (pragma, assignment, declaration, `if`, `for`, `repeat`, `menu`,
`item`, block, expression), with the dictionary-over-block precedence for
a leading brace. -/
def parseStmt : Nat → List Tok → Option (Stmt × List Tok)
  | 0, _ => none
  | f + 1, ts =>
    match ts with
    | .pragmaDir d :: r =>
      match r with
      | v :: r2 =>
        match pragmaValue v with
        | some e => some (.pragma d e, r2)
        | none => none
      | [] => none
    | .kwConst :: r =>
      match r with
      | .ident n :: .eq :: r2 =>
        match parseExpr f 0 r2 with
        | some (v, r3) => some (.assign true (.ident n) v, r3)
        | none => none
      | .atVar n :: .eq :: r2 =>
        match parseExpr f 0 r2 with
        | some (v, r3) => some (.assign true (.atVar n) v, r3)
        | none => none
      | _ => none
    | .atVar n :: r =>
      match r with
      | .colon :: .typeName t :: r2 => some (.decl n (.typeName t), r2)
      | .colon :: .ident t :: r2 => some (.decl n (.ident t), r2)
      | .eq :: r2 =>
        match parseExpr f 0 r2 with
        | some (v, r3) => some (.assign false (.atVar n) v, r3)
        | none => none
      | _ => parseExprStmt f (.atVar n :: r)
    | .ident n :: r =>
      match r with
      | .eq :: r2 =>
        match parseExpr f 0 r2 with
        | some (v, r3) => some (.assign false (.ident n) v, r3)
        | none => none
      | _ => parseExprStmt f (.ident n :: r)
    | .kwIf :: r =>
      match parseExpr f 0 r with
      | some (c, r1) =>
        match parseStmt f r1 with
        | some (cons, r2) =>
          match r2 with
          | .kwElse :: r3 =>
            match parseStmt f r3 with
            | some (alt, r4) => some (.ifStmt c cons (some alt), r4)
            | none => none
          | _ => some (.ifStmt c cons none, r2)
        | none => none
      | none => none
    | .kwFor :: r =>
      match r with
      | .ident v :: .kwIn :: r2 =>
        match parseExpr f 0 r2 with
        | some (it, r3) =>
          match parseStmt f r3 with
          | some (b, r4) => some (.forStmt v it b, r4)
          | none => none
        | none => none
      | _ => none
    | .kwRepeat :: r =>
      match r with
      | .ident v :: .kwFor :: r2 =>
        match parseExpr f 0 r2 with
        | some (c, r3) =>
          match parseStmt f r3 with
          | some (b, r4) => some (.repeatVar v c b, r4)
          | none => none
        | none => none
      | _ =>
        match parseExpr f 0 r with
        | some (c, r1) =>
          match parseStmt f r1 with
          | some (b, r2) => some (.repeatCount c b, r2)
          | none => parseRepeatBare f r
        | none => parseRepeatBare f r
    | .kwMenu :: r =>
      match parseExpr f 0 r with
      | some (tEx, r1) =>
        match r1 with
        | .lbrace :: r2 =>
          match parseBlockBody f r2 with
          | some (ss, r3) => some (.menu (some tEx) (.block ss), r3)
          | none => none
        | _ => parseMenuNoTitle f r
      | none => parseMenuNoTitle f r
    | .kwItem :: r =>
      match parseExpr f 0 r with
      | some (tEx, r1) =>
        match r1 with
        | .colon :: r2 =>
          match parseStmt f r2 with
          | some (b, r3) => some (.item tEx b, r3)
          | none => none
        | _ => none
      | none => none
    | .lbrace :: r =>
      match parseExpr f 0 (.lbrace :: r) with
      | some (e, r2) => some (.exprStmt e, r2)
      | none =>
        match parseBlockBody f r with
        | some (ss, r2) => some (.block ss, r2)
        | none => none
    | _ => parseExprStmt f ts

/-- A bare expression used as a statement. -/
def parseExprStmt : Nat → List Tok → Option (Stmt × List Tok)
  | 0, _ => none
  | f + 1, ts =>
    match parseExpr f 0 ts with
    | some (e, r) => some (.exprStmt e, r)
    | none => none

/-- The bare third `repeat` variant: only a body. -/
def parseRepeatBare : Nat → List Tok → Option (Stmt × List Tok)
  | 0, _ => none
  | f + 1, ts =>
    match parseStmt f ts with
    | some (b, r) => some (.repeatBare b, r)
    | none => none

/-- The titleless form of `menu_statement`: the mandatory block alone. -/
def parseMenuNoTitle : Nat → List Tok → Option (Stmt × List Tok)
  | 0, _ => none
  | f + 1, .lbrace :: r2 =>
    match parseBlockBody f r2 with
    | some (ss, r3) => some (.menu none (.block ss), r3)
    | none => none
  | _ + 1, _ => none

/-- `_expression` at a minimum binding power: an atom (or call) followed
by the precedence-climbing loop. -/
def parseExpr : Nat → Nat → List Tok → Option (Expr × List Tok)
  | 0, _, _ => none
  | f + 1, m, ts =>
    match parseAtom f ts with
    | some (a, r) => climb f m a r
    | none => none

/-- The climbing loop of `binary_expression`: consume operators of
precedence at least `m`; left associativity parses the right operand at
precedence one higher. -/
def climb : Nat → Nat → Expr → List Tok → Option (Expr × List Tok)
  | 0, _, _, _ => none
  | f + 1, m, acc, ts =>
    match ts with
    | op :: r =>
      match binOpPrec op with
      | some p =>
        if m ≤ p then
          match parseExpr f (p + 1) r with
          | some (rhs, r2) => climb f m (.binary op acc rhs) r2
          | none => none
        else some (acc, ts)
      | none => some (acc, ts)
    | [] => some (acc, ts)

/-- Atoms in the order of `_expression`: parenthesized group, dictionary
(on a brace in expression position), call (identifier, keyword or type
name immediately followed by a parenthesis), then the atomic literals. -/
def parseAtom : Nat → List Tok → Option (Expr × List Tok)
  | 0, _ => none
  | f + 1, ts =>
    match ts with
    | .lparen :: r =>
      match parseExpr f 0 r with
      | some (e, r1) =>
        match r1 with
        | .rparen :: r2 => some (.paren e, r2)
        | _ => none
      | none => none
    | .lbrace :: r =>
      match parseDictPairs f r with
      | some (ps, r1) => some (.dict ps, r1)
      | none => none
    | .ident n :: .lparen :: r =>
      match parseArgs f r with
      | some (args, r1) => some (.call (.ident n) args, r1)
      | none => none
    | .keyword k :: .lparen :: r =>
      match parseArgs f r with
      | some (args, r1) => some (.call (.keyword k) args, r1)
      | none => none
    | .typeName t :: .lparen :: r =>
      match parseArgs f r with
      | some (args, r1) => some (.call (.typeName t) args, r1)
      | none => none
    | .ident n :: r => some (.ident n, r)
    | .atVar n :: r => some (.atVar n, r)
    | .number n :: r => some (.num n, r)
    | .str ps :: r => some (.str ps, r)
    | .sqStr ps :: r => some (.sqStr ps, r)
    | .boolTrue :: r => some (.boolean true, r)
    | .boolFalse :: r => some (.boolean false, r)
    | .namedConst s :: r => some (.namedConst s, r)
    | .keyword s :: r => some (.keyword s, r)
    | .typeName s :: r => some (.typeName s, r)
    | _ => none

/-- Call argument list after the opening parenthesis: empty, or a
comma-separated expression list; consumes the closing parenthesis. -/
def parseArgs : Nat → List Tok → Option (List Expr × List Tok)
  | 0, _ => none
  | _ + 1, .rparen :: r => some ([], r)
  | f + 1, ts => parseArgList f ts

/-- One or more comma-separated call arguments (no trailing comma). -/
def parseArgList : Nat → List Tok → Option (List Expr × List Tok)
  | 0, _ => none
  | f + 1, ts =>
    match parseExpr f 0 ts with
    | some (e, r) =>
      match r with
      | .comma :: r2 =>
        match parseArgList f r2 with
        | some (l, r3) => some (e :: l, r3)
        | none => none
      | .rparen :: r2 => some ([e], r2)
      | _ => none
    | none => none

/-- Dictionary interior after the opening brace: empty, or a
comma-separated pair list; consumes the closing brace. -/
def parseDictPairs : Nat → List Tok → Option (List (Expr × Expr) × List Tok)
  | 0, _ => none
  | _ + 1, .rbrace :: r => some ([], r)
  | f + 1, ts => parsePairList f ts

/-- One or more comma-separated `dictionary_pair`s (no trailing comma):
each is a string-or-identifier key, a colon, and an expression value. -/
def parsePairList : Nat → List Tok → Option (List (Expr × Expr) × List Tok)
  | 0, _ => none
  | f + 1, k :: .colon :: r =>
    match keyExpr k with
    | some ke =>
      match parseExpr f 0 r with
      | some (v, r1) =>
        match r1 with
        | .comma :: r2 =>
          match parsePairList f r2 with
          | some (l, r3) => some ((ke, v) :: l, r3)
          | none => none
        | .rbrace :: r2 => some ([(ke, v)], r2)
        | _ => none
      | none => none
    | none => none
  | _ + 1, _ => none

end

/-- Parse a token list with fuel proportional to its length. -/
def parseToks (ts : List Tok) : Option (List Stmt) :=
  parseProgram (10 * ts.length + 10) ts

/-- Parse a character list: tokenize, then parse the token stream. -/
def parseChars (cs : List Char) : Option (List Stmt) :=
  match tokenizeF (cs.length + 1) cs with
  | some ts => parseToks ts
  | none => none

/-- Parse a source string: the whole pipeline. -/
def parse (s : String) : Option (List Stmt) :=
  parseChars s.data

/-! ## Trivia units

A model of the text a user can insert between tokens: a whitespace
character, a line comment together with its terminating newline, or a
complete block comment. -/

inductive TriviaUnit where
  | ws (c : Char)
  | lineComment (content : List Char)
  | blockComment (content : List Char)
deriving Repr

/-- Whether a character list contains the two-character sequence that
closes a block comment. -/
def hasBlockEnd : List Char → Bool
  | [] => false
  | [_] => false
  | c :: c2 :: r => (c = '*' && c2 = '/') || hasBlockEnd (c2 :: r)

/-- Well-formedness of a trivia unit: a whitespace unit is a whitespace
character; a line comment's content has no newline (the comment regex
`/.*/ ` stops there); a block comment's content does not contain the
closing sequence (the comment ends at the first one). -/
def triviaWF : TriviaUnit → Bool
  | .ws c => wsChar c
  | .lineComment cs => cs.all (fun c => !(c = nl))
  | .blockComment cs => !(hasBlockEnd cs)

/-- The text of a trivia unit. -/
def renderTriviaUnit : TriviaUnit → List Char
  | .ws c => [c]
  | .lineComment cs => '/' :: '/' :: (cs ++ [nl])
  | .blockComment cs => '/' :: '*' :: (cs ++ '*' :: '/' :: [])

/-- The text of a sequence of trivia units. -/
def renderTrivia (us : List TriviaUnit) : List Char :=
  us.foldr (fun u acc => renderTriviaUnit u ++ acc) []

/-! ## Token families for the universally quantified claims -/

/-- Tokens of `n + 1` nested braceless conditionals where only the
innermost carries an `else`: the token form of
`if true if true ... if true 1 else 2`. -/
def nestToks : Nat → List Tok
  | 0 => [.kwIf, .boolTrue, .number ['1'], .kwElse, .number ['2']]
  | n + 1 => .kwIf :: .boolTrue :: nestToks n

/-- The tree the dangling-`else` rule requires for `nestToks`: the
`else` bound to the innermost `if`, every outer `alternative` absent. -/
def nestedIf : Nat → Stmt
  | 0 => .ifStmt (.boolean true) (.exprStmt (.num ['1'])) (some (.exprStmt (.num ['2'])))
  | n + 1 => .ifStmt (.boolean true) (nestedIf n) none

/-- The token tail of an operator chain: for each pair, its operator
token then a number operand. -/
def chainToks (ps : List (Tok × List Char)) : List Tok :=
  ps.foldr (fun x acc => x.1 :: .number x.2 :: acc) []

/-- The left-nested tree of an operator chain starting from operand
`a`. -/
def chainFold (a : List Char) (ps : List (Tok × List Char)) : Expr :=
  ps.foldl (fun acc x => .binary x.1 acc (.num x.2)) (.num a)

/-! ## Lexeme invariants -/

/-- Tokens that can carry an at-variable lexeme or string parts. -/
def isAtVarOrStr : Tok → Bool
  | .atVar _ => true
  | .str _ => true
  | _ => false

/-- The lexeme invariant of a single token: an at-variable lexeme holds
only characters from the allowed set, and interpolation spans inside a
double-quoted string never contain a closing brace. -/
def tokWF (t : Tok) : Prop :=
  (∀ nm, t = .atVar nm → ∀ c ∈ nm, atChar c = true) ∧
  (∀ ps, t = .str ps → ∀ cs, StrPart.interpolation cs ∈ ps → rbr ∉ cs)

/-- The climbing loop stops when the next token is no binary operator of
precedence at least `m`. -/
def stopsAt (m : Nat) : List Tok → Prop
  | [] => True
  | t :: _ => ∀ p, binOpPrec t = some p → p < m

/-! ## Dictionary-key shape predicates -/

/-- A legal `dictionary_pair` key: a double-quoted string node or a bare
identifier node. -/
def KeyShape (e : Expr) : Prop :=
  (∃ ps, e = Expr.str ps) ∨ (∃ s, e = Expr.ident s)

/-- Every dictionary pair anywhere inside an expression has a key of the
legal shape (and the key and value satisfy the same property). -/
inductive ExprKeysOK : Expr → Prop where
  | binary : ∀ {op l r}, ExprKeysOK l → ExprKeysOK r → ExprKeysOK (.binary op l r)
  | call : ∀ {fn args}, ExprKeysOK fn → (∀ e ∈ args, ExprKeysOK e) → ExprKeysOK (.call fn args)
  | paren : ∀ {e}, ExprKeysOK e → ExprKeysOK (.paren e)
  | dict : ∀ {ps}, (∀ p ∈ ps, KeyShape p.1) → (∀ p ∈ ps, ExprKeysOK p.1) →
      (∀ p ∈ ps, ExprKeysOK p.2) → ExprKeysOK (.dict ps)
  | ident : ∀ {s}, ExprKeysOK (.ident s)
  | atVar : ∀ {s}, ExprKeysOK (.atVar s)
  | num : ∀ {s}, ExprKeysOK (.num s)
  | str : ∀ {ps}, ExprKeysOK (.str ps)
  | sqStr : ∀ {ps}, ExprKeysOK (.sqStr ps)
  | boolean : ∀ {b}, ExprKeysOK (.boolean b)
  | namedConst : ∀ {s}, ExprKeysOK (.namedConst s)
  | keyword : ∀ {s}, ExprKeysOK (.keyword s)
  | typeName : ∀ {s}, ExprKeysOK (.typeName s)

/-- Every dictionary pair anywhere inside a statement has a key of the
legal shape. -/
inductive StmtKeysOK : Stmt → Prop where
  | pragma : ∀ {d v}, ExprKeysOK v → StmtKeysOK (.pragma d v)
  | assign : ∀ {c n v}, ExprKeysOK n → ExprKeysOK v → StmtKeysOK (.assign c n v)
  | decl : ∀ {n ty}, ExprKeysOK ty → StmtKeysOK (.decl n ty)
  | ifStmt : ∀ {c cons alt}, ExprKeysOK c → StmtKeysOK cons →
      (∀ a, alt = some a → StmtKeysOK a) → StmtKeysOK (.ifStmt c cons alt)
  | forStmt : ∀ {v it b}, ExprKeysOK it → StmtKeysOK b → StmtKeysOK (.forStmt v it b)
  | repeatVar : ∀ {v c b}, ExprKeysOK c → StmtKeysOK b → StmtKeysOK (.repeatVar v c b)
  | repeatCount : ∀ {c b}, ExprKeysOK c → StmtKeysOK b → StmtKeysOK (.repeatCount c b)
  | repeatBare : ∀ {b}, StmtKeysOK b → StmtKeysOK (.repeatBare b)
  | menu : ∀ {t b}, (∀ e, t = some e → ExprKeysOK e) → StmtKeysOK b → StmtKeysOK (.menu t b)
  | item : ∀ {t b}, ExprKeysOK t → StmtKeysOK b → StmtKeysOK (.item t b)
  | block : ∀ {l}, (∀ st ∈ l, StmtKeysOK st) → StmtKeysOK (.block l)
  | exprStmt : ∀ {e}, ExprKeysOK e → StmtKeysOK (.exprStmt e)

/-! # Theorems -/

/-! ## Generic inversion helpers for the lexer -/

theorem tokWF_of_other {t : Tok} (h : isAtVarOrStr t = false) : tokWF t := by
  cases t <;> simp [isAtVarOrStr] at h ⊢ <;> simp [tokWF]

theorem lookupWord_other {w : List Char} {l : List (List Char × Tok)} {t : Tok}
    (h : lookupWord w l = some t) (hl : ∀ p ∈ l, isAtVarOrStr p.2 = false) :
    isAtVarOrStr t = false := by
  induction l with
  | nil => exact absurd h (by simp [lookupWord])
  | cons p r ih =>
    rw [lookupWord] at h
    split at h
    · cases h
      exact hl p (by simp)
    · exact ih h (fun q hq => hl q (by simp [hq]))

theorem lookupChar_other {c : Char} {l : List (Char × Tok)} {t : Tok}
    (h : lookupChar c l = some t) (hl : ∀ p ∈ l, isAtVarOrStr p.2 = false) :
    isAtVarOrStr t = false := by
  induction l with
  | nil => exact absurd h (by simp [lookupChar])
  | cons p r ih =>
    rw [lookupChar] at h
    split at h
    · cases h
      exact hl p (by simp)
    · exact ih h (fun q hq => hl q (by simp [hq]))

theorem classify_other (w : List Char) : isAtVarOrStr (classify w) = false := by
  unfold classify
  cases h : lookupWord w reservedWords with
  | some t => exact lookupWord_other h (by decide)
  | none => split_ifs <;> rfl

/-! ## The single-token lexeme invariant, per lexer piece -/

theorem lexWord_wf {s : List Char} {t : Tok} {r : List Char}
    (h : lexWord s = some (t, r)) : tokWF t := by
  rw [lexWord] at h
  simp only [Option.some.injEq, Prod.mk.injEq] at h
  exact tokWF_of_other (h.1 ▸ classify_other _)

theorem lexNum_wf {s : List Char} {t : Tok} {r : List Char}
    (h : lexNum s = some (t, r)) : tokWF t := by
  rw [lexNum] at h
  apply tokWF_of_other
  split at h
  · split at h
    · split at h
      · cases h; rfl
      · cases h; rfl
    · cases h; rfl
  · cases h; rfl

theorem lexAt_wf {s : List Char} {t : Tok} {r : List Char}
    (h : lexAt s = some (t, r)) : tokWF t := by
  rw [lexAt] at h
  split at h
  · exact absurd h (by simp)
  · simp only [Option.some.injEq, Prod.mk.injEq] at h
    rcases h with ⟨h1, h2⟩
    subst h1
    constructor
    · intro nm hnm c hc
      cases hnm
      rcases List.mem_cons.mp hc with h3 | h3
      · subst h3; decide
      · exact List.mem_takeWhile_imp h3
    · intro ps hps
      exact absurd hps (by simp)

/-- The interpolation invariant carried through the string scanner. -/
theorem lexStrGo_interp {input : List Char} :
    ∀ {m acc parts res r}, lexStrGo m acc parts input = some (res, r) →
      (∀ cs, StrPart.interpolation cs ∈ parts → rbr ∉ cs) →
      (m = .interp → rbr ∉ acc) →
      ∀ cs, StrPart.interpolation cs ∈ res → rbr ∉ cs := by
  induction input with
  | nil => intro m acc parts res r h; exact absurd h (by simp [lexStrGo])
  | cons c rest ih =>
    intro m acc parts res r h hparts hacc
    simp only [lexStrGo] at h
    match m with
    | SMode.interp =>
      simp only at h
      split at h
      · refine ih h ?_ (by simp)
        intro cs hcs
        rcases List.mem_cons.mp hcs with h2 | h2
        · cases h2
          intro hmem
          exact absurd (List.mem_reverse.mp hmem) ((hacc rfl) ·)
        · exact hparts cs h2
      · next h1 =>
        refine ih h hparts ?_
        intro _ hmem
        rcases List.mem_cons.mp hmem with h2 | h2
        · exact absurd h2.symm h1
        · exact hacc rfl h2
    | SMode.esc =>
      simp only at h
      split at h
      · exact absurd h (by simp)
      · refine ih h ?_ (by simp)
        intro cs hcs
        rcases List.mem_cons.mp hcs with h2 | h2
        · exact absurd h2 (by simp)
        · exact hparts cs h2
    | SMode.normal =>
      simp only at h
      split at h
      · cases h
        intro cs hcs
        have hmem := List.mem_reverse.mp hcs
        unfold flushContent at hmem
        split at hmem
        · exact hparts cs hmem
        · rcases List.mem_cons.mp hmem with h2 | h2
          · exact absurd h2 (by simp)
          · exact hparts cs h2
      · split at h
        · refine ih h ?_ (by simp)
          intro cs hcs
          unfold flushContent at hcs
          split at hcs
          · exact hparts cs hcs
          · rcases List.mem_cons.mp hcs with h4 | h4
            · exact absurd h4 (by simp)
            · exact hparts cs h4
        · split at h
          · refine ih h ?_ (by simp)
            intro cs hcs
            unfold flushContent at hcs
            split at hcs
            · exact hparts cs hcs
            · rcases List.mem_cons.mp hcs with h4 | h4
              · exact absurd h4 (by simp)
              · exact hparts cs h4
          · exact ih h hparts (by simp)

theorem lexPragma_wf {s : List Char} {t : Tok} {r : List Char}
    (h : lexPragma s = some (t, r)) : tokWF t := by
  rw [lexPragma] at h
  apply tokWF_of_other
  split at h
  · cases h; rfl
  · split at h
    · cases h; rfl
    · split at h
      · cases h; rfl
      · split at h
        · cases h; rfl
        · exact absurd h (by simp)

theorem lexOp_wf {c : Char} {cs : List Char} {t : Tok} {r : List Char}
    (h : lexOp c cs = some (t, r)) : tokWF t := by
  unfold lexOp at h
  apply tokWF_of_other
  split_ifs at h
  · split at h
    · split at h <;> (cases h; rfl)
    · cases h; rfl
  · split at h
    · split at h
      · cases h; rfl
      · exact absurd h (by simp)
    · exact absurd h (by simp)
  · split at h
    · split at h <;> (cases h; rfl)
    · cases h; rfl
  · split at h
    · split at h <;> (cases h; rfl)
    · cases h; rfl
  · split at h
    · cases h
      next ht => exact lookupChar_other ht (by decide)
    · exact absurd h (by simp)

theorem lexPunct_wf {c : Char} {cs : List Char} {t : Tok} {r : List Char}
    (h : lexPunct c cs = some (t, r)) : tokWF t := by
  rw [lexPunct] at h
  split_ifs at h
  · cases h; exact tokWF_of_other rfl
  · cases h; exact tokWF_of_other rfl
  · exact lexOp_wf h

theorem lexStrTok_wf {cs : List Char} {t : Tok} {r : List Char}
    (h : lexStrTok cs = some (t, r)) : tokWF t := by
  rw [lexStrTok] at h
  split at h
  · cases h
    next ps r2 hgo =>
    constructor
    · intro nm hnm
      exact absurd hnm (by simp)
    · intro ps2 hps2 cs2 hcs2
      cases hps2
      exact lexStrGo_interp hgo (by simp) (by simp) cs2 hcs2
  · exact absurd h (by simp)

theorem lexSqTok_wf {cs : List Char} {t : Tok} {r : List Char}
    (h : lexSqTok cs = some (t, r)) : tokWF t := by
  rw [lexSqTok] at h
  apply tokWF_of_other
  split at h
  · cases h; rfl
  · exact absurd h (by simp)

theorem lexSym_wf {c : Char} {cs : List Char} {t : Tok} {r : List Char}
    (h : lexSym c cs = some (t, r)) : tokWF t := by
  rw [lexSym] at h
  split_ifs at h
  · exact lexStrTok_wf h
  · exact lexSqTok_wf h
  · exact lexAt_wf h
  · exact lexPragma_wf h
  · exact lexPunct_wf h

theorem lexTok_wf {s : List Char} {t : Tok} {r : List Char}
    (h : lexTok s = some (t, r)) : tokWF t := by
  match s with
  | [] => exact absurd h (by simp [lexTok])
  | c :: cs =>
    rw [lexTok] at h
    split_ifs at h
    · exact lexWord_wf h
    · exact lexNum_wf h
    · exact lexSym_wf h

/-- Every token produced by the tokenizer satisfies the single-token
lexeme invariant. -/
theorem tokenizeF_wf {f : Nat} :
    ∀ {s toks}, tokenizeF f s = some toks → ∀ t ∈ toks, tokWF t := by
  induction f with
  | zero => intro s toks h; exact absurd h (by simp [tokenizeF])
  | succ f ih =>
    intro s toks h
    rw [tokenizeF] at h
    split at h
    · exact absurd h (by simp)
    · cases h
      simp
    · split at h
      next => exact absurd h (by simp)
      next t2 r2 hlex =>
        split at h
        next ts hrec =>
          cases h
          intro t ht
          rcases List.mem_cons.mp ht with h1 | h1
          · subst h1
            exact lexTok_wf hlex
          · exact ih hrec t h1
        next => exact absurd h (by simp)

theorem atChar_split {c : Char} (h : atChar c = true) : wsChar c = false ∧ c ≠ ':' := by
  unfold atChar at h
  simp only [Bool.and_eq_true, Bool.not_eq_true'] at h
  exact ⟨h.1, by simpa using h.2⟩

/-! ## Claim C6 -/

/-- C6 counterexample: the claim says an at-variable lexeme never contains
`=`; but `@a=b` lexes as one at-variable token whose lexeme contains `=`
(the regex `/@[^ \t\n\r:]+/` does not exclude `=`). -/
theorem c6_atvar_eq_counterexample :
    tokenizeAll "@a=b" = some [.atVar ['@', 'a', '=', 'b']] ∧
    '=' ∈ ['@', 'a', '=', 'b'] :=
  ⟨rfl, by simp⟩

/-- C6 amended: an at-variable token is `@` followed by one or more
characters excluding whitespace and `:` (but not `=`): for every input,
the lexeme of an `at_variable` token contains no whitespace character and
no colon. -/
theorem c6_atvar_lexeme (f : Nat) (s : List Char) (toks : List Tok) (nm : List Char)
    (h : tokenizeF f s = some toks) (hmem : Tok.atVar nm ∈ toks) :
    ∀ c ∈ nm, wsChar c = false ∧ c ≠ ':' := by
  intro c hc
  exact atChar_split ((tokenizeF_wf h (Tok.atVar nm) hmem).1 nm rfl c hc)

theorem c6_atvar_lexeme_witness : wsChar 'a' = false ∧ 'a' ≠ ':' :=
  c6_atvar_lexeme 4 "@ab".data [.atVar ['@', 'a', 'b']] ['@', 'a', 'b']
    rfl (by simp) 'a' (by simp)

/-! ## Claim C7 -/

/-- C7: the string `"a\x7b1+1\x7db"` parses as a string node with exactly
three parts in order (literal `a`, interpolation `1+1`, literal `b`), and
in every tokenization an interpolation span never contains a closing
brace, so a span always extends from its opening brace to the first
following closing brace (a single-level scan with no nesting). -/
theorem c7_interpolation :
    (parse "\"a\x7b1+1\x7db\"" =
      some [.exprStmt (.str [.content ['a'], .interpolation ['1', '+', '1'],
        .content ['b']])]) ∧
    ∀ f s toks ps cs, tokenizeF f s = some toks → Tok.str ps ∈ toks →
      StrPart.interpolation cs ∈ ps → rbr ∉ cs := by
  refine ⟨rfl, ?_⟩
  intro f s toks ps cs h hmem hps
  exact (tokenizeF_wf h (Tok.str ps) hmem).2 ps rfl cs hps

theorem c7_interpolation_witness : rbr ∉ ['1', '+', '1'] :=
  c7_interpolation.2 10 "\"a\x7b1+1\x7db\"".data
    [.str [.content ['a'], .interpolation ['1', '+', '1'], .content ['b']]]
    [.content ['a'], .interpolation ['1', '+', '1'], .content ['b']]
    ['1', '+', '1'] rfl (by simp) (by simp)

/-! ## Claims C3 and C4: dangling else, precedence and associativity -/


theorem climb_stop {f m : Nat} {acc : Expr} {ts : List Tok} (h : stopsAt m ts) :
    climb (f + 1) m acc ts = some (acc, ts) := by
  match ts with
  | [] => rw [climb]
  | t :: r =>
    rw [climb]
    cases hb : binOpPrec t with
    | none => simp
    | some p =>
      have hp := h p hb
      simp [Nat.not_le.mpr hp]

theorem parseExpr_num {f m : Nat} {n : List Char} {rest : List Tok} (h : stopsAt m rest) :
    parseExpr (f + 2) m (.number n :: rest) = some (.num n, rest) := by
  rw [show f + 2 = (f + 1) + 1 by omega, parseExpr]
  have ha : parseAtom (f + 1) (.number n :: rest) = some (.num n, rest) := by
    rw [parseAtom]
  rw [ha]
  exact climb_stop h

theorem parseExpr_boolTrue {f m : Nat} {rest : List Tok} (h : stopsAt m rest) :
    parseExpr (f + 2) m (.boolTrue :: rest) = some (.boolean true, rest) := by
  rw [show f + 2 = (f + 1) + 1 by omega, parseExpr]
  have ha : parseAtom (f + 1) (.boolTrue :: rest) = some (.boolean true, rest) := by
    rw [parseAtom]
  rw [ha]
  exact climb_stop h

theorem parseExprStmt_num {f : Nat} {n : List Char} {rest : List Tok} (h : stopsAt 0 rest) :
    parseExprStmt (f + 3) (.number n :: rest) = some (.exprStmt (.num n), rest) := by
  rw [show f + 3 = (f + 2) + 1 by omega, parseExprStmt]
  rw [parseExpr_num h]

theorem nestToks_stops (n m : Nat) : stopsAt m (nestToks n) := by
  cases n <;> simp [nestToks, stopsAt, binOpPrec]

theorem parseStmt_nest : ∀ n f, parseStmt (f + (2 * n + 8)) (nestToks n) = some (nestedIf n, []) := by
  intro n
  induction n with
  | zero =>
    intro f
    rw [show f + (2 * 0 + 8) = (f + 7) + 1 by omega]
    rw [nestToks, parseStmt]
    rw [show f + 7 = (f + 5) + 2 by omega]
    rw [parseExpr_boolTrue (by simp [stopsAt, binOpPrec])]
    dsimp only
    rw [show (f + 5) + 2 = (f + 6) + 1 by omega, parseStmt]
    rw [show f + 6 = (f + 3) + 3 by omega]
    rw [parseExprStmt_num (by simp [stopsAt, binOpPrec])]
    dsimp only
    rw [show (f + 3) + 3 + 1 = ((f + 3) + 3) + 1 by omega, parseStmt]
    rw [parseExprStmt_num (by simp [stopsAt])]
    dsimp only
    rw [nestedIf]
    all_goals simp
  | succ n ih =>
    intro f
    rw [show f + (2 * (n + 1) + 8) = (f + (2 * n + 9)) + 1 by omega]
    rw [nestToks, parseStmt]
    rw [show f + (2 * n + 9) = (f + (2 * n + 7)) + 2 by omega]
    rw [parseExpr_boolTrue (nestToks_stops n 0)]
    dsimp only
    rw [show (f + (2 * n + 7)) + 2 = (f + 1) + (2 * n + 8) by omega]
    rw [ih (f + 1)]
    dsimp only
    rw [nestedIf]

/-- C3: `if a if b 1 else 2` parses with the `else` bound to the inner
`if` (the outer `alternative` is absent), and for every nesting depth of
braceless conditionals the single `else` binds to the innermost `if`:
exactly the innermost `if_statement` of the resulting tree carries an
`alternative`. -/
theorem c3_dangling_else :
    (parse "if a if b 1 else 2" =
      some [.ifStmt (.ident ['a'])
        (.ifStmt (.ident ['b']) (.exprStmt (.num ['1'])) (some (.exprStmt (.num ['2']))))
        none]) ∧
    ∀ n f, parseStmt (f + (2 * n + 8)) (nestToks n) = some (nestedIf n, []) :=
  ⟨rfl, parseStmt_nest⟩

theorem chainToks_stops {p m : Nat} {ps : List (Tok × List Char)}
    (hp : ∀ x ∈ ps, binOpPrec x.1 = some p) (hm : p < m) : stopsAt m (chainToks ps) := by
  match ps with
  | [] => simp [chainToks, stopsAt]
  | (b, k) :: tl =>
    have hb : binOpPrec b = some p := hp (b, k) (by simp)
    show stopsAt m (b :: Tok.number k :: chainToks tl)
    intro q hq
    rw [hb] at hq
    cases hq
    exact hm

theorem climb_chain : ∀ (ps : List (Tok × List Char)) (f m : Nat) (acc : Expr) (p : Nat),
    (∀ x ∈ ps, binOpPrec x.1 = some p) → m ≤ p →
    climb (f + (2 * ps.length + 1)) m acc (chainToks ps) =
      some (ps.foldl (fun a x => .binary x.1 a (.num x.2)) acc, []) := by
  intro ps
  induction ps with
  | nil =>
    intro f m acc p hp hm
    rw [show f + (2 * List.length [] + 1) = f + 1 by simp]
    have : chainToks [] = [] := rfl
    rw [this, climb_stop (by simp [stopsAt])]
    rfl
  | cons x tl ih =>
    intro f m acc p hp hm
    obtain ⟨b, k⟩ := x
    have hb : binOpPrec b = some p := hp (b, k) (by simp)
    have hct : chainToks ((b, k) :: tl) = b :: .number k :: chainToks tl := rfl
    rw [hct]
    rw [show f + (2 * List.length ((b, k) :: tl) + 1) = (f + (2 * List.length tl + 2)) + 1 by
      simp; omega]
    rw [climb]
    simp only [hb]
    rw [if_pos hm]
    rw [show f + (2 * List.length tl + 2) = (f + 2 * List.length tl) + 2 by omega]
    rw [parseExpr_num (chainToks_stops (fun y hy => hp y (by simp [hy])) (Nat.lt_succ_self p))]
    dsimp only
    rw [show (f + 2 * List.length tl) + 2 = (f + 1) + (2 * List.length tl + 1) by omega]
    rw [ih (f + 1) m (.binary b acc (.num k)) p (fun y hy => hp y (by simp [hy])) hm]
    rfl

/-- C4: `*` and `/` bind tighter than `+` and `-` (`1 + 2 * 3` parses as
`1 + (2 * 3)`, `1 * 2 + 3` as `(1 * 2) + 3`), and every chain of
equal-precedence operators nests to the left (left associativity). -/
theorem c4_precedence_assoc :
    (parse "1 + 2 * 3" =
      some [.exprStmt (.binary .plus (.num ['1'])
        (.binary .star (.num ['2']) (.num ['3'])))]) ∧
    (parse "1 * 2 + 3" =
      some [.exprStmt (.binary .plus
        (.binary .star (.num ['1']) (.num ['2'])) (.num ['3']))]) ∧
    ∀ ps p a f, (∀ x ∈ ps, binOpPrec x.1 = some p) →
      parseExpr (f + (2 * ps.length + 4)) 0 (.number a :: chainToks ps) =
        some (chainFold a ps, []) := by
  refine ⟨rfl, rfl, ?_⟩
  intro ps p a f hp
  rw [show f + (2 * ps.length + 4) = ((f + 2 * ps.length + 3)) + 1 by omega, parseExpr]
  rw [show f + 2 * ps.length + 3 = (f + 2 * ps.length + 2) + 1 by omega]
  rw [parseAtom]
  dsimp only
  rw [show (f + 2 * ps.length + 2) + 1 = (f + 2) + (2 * ps.length + 1) by omega]
  rw [climb_chain ps (f + 2) 0 (.num a) p hp (Nat.zero_le p)]
  rfl

theorem c4_precedence_assoc_witness :
    parseExpr (0 + (2 * List.length [(Tok.minus, ['2']), (Tok.plus, ['3'])] + 4)) 0
      (.number ['1'] :: chainToks [(.minus, ['2']), (.plus, ['3'])]) =
      some (chainFold ['1'] [(.minus, ['2']), (.plus, ['3'])], []) :=
  c4_precedence_assoc.2.2 [(.minus, ['2']), (.plus, ['3'])] PREC.SUM ['1'] 0 (by decide)



/-! ## Claim C1: the three repeat forms -/

/-- C1 counterexample: the claim says `repeat x \x7b \x7d` never treats `x`
as the count; but the grammar's second `repeat` variant accepts the bare
identifier `x` as its `count` expression, so the parse yields the
two-field form with `x` as the count. -/
theorem c1_repeat_counterexample :
    parse "repeat x \x7b \x7d" =
      some [.repeatCount (.ident ['x']) (.exprStmt (.dict []))] := rfl

/-- C1 amended: `repeat x for 5 \x7b \x7d` parses as the three-field form,
`repeat 5 \x7b \x7d` as the two-field form, `repeat \x7b \x7d` as the
one-field form, and `repeat x \x7b \x7d` (identifier not followed by
`for`) parses as the two-field form with `x` as the count (the braces,
being a valid empty dictionary, parse as a dictionary-expression body by
the dictionary-over-block precedence). -/
theorem c1_repeat_forms :
    (parse "repeat x for 5 \x7b \x7d" =
      some [.repeatVar ['x'] (.num ['5']) (.exprStmt (.dict []))]) ∧
    (parse "repeat 5 \x7b \x7d" =
      some [.repeatCount (.num ['5']) (.exprStmt (.dict []))]) ∧
    (parse "repeat \x7b \x7d" = some [.repeatBare (.exprStmt (.dict []))]) ∧
    (parse "repeat x \x7b \x7d" =
      some [.repeatCount (.ident ['x']) (.exprStmt (.dict []))]) :=
  ⟨rfl, rfl, rfl, rfl⟩

/-! ## Claim C2: dictionary versus block -/

/-- C2 counterexample: the claim says the braces of
`if true \x7b "k": 1 \x7d` parse as a block of statements; but `"k": 1` is
no statement, and the `dictionary` rule has precedence 11 against the
`block` rule's 1, so the consequence parses as a dictionary literal. -/
theorem c2_if_dict_counterexample :
    parse "if true \x7b \"k\": 1 \x7d" =
      some [.ifStmt (.boolean true)
        (.exprStmt (.dict [(.str [.content ['k']], .num ['1'])])) none] := rfl

/-- C2 amended: braces in an expression position parse as a dictionary;
braces in body position whose content forms a valid dictionary also parse
as a dictionary (the dictionary precedence 11 beats the block precedence
1), as in `if true \x7b "k": 1 \x7d`; braces in body position whose
content is not a valid dictionary parse as a block of statements, as in
`if true \x7b x = 1 \x7d`. -/
theorem c2_brace_disambiguation :
    (parse "y = \x7b \"k\": 1 \x7d" =
      some [.assign false (.ident ['y'])
        (.dict [(.str [.content ['k']], .num ['1'])])]) ∧
    (parse "if true \x7b \"k\": 1 \x7d" =
      some [.ifStmt (.boolean true)
        (.exprStmt (.dict [(.str [.content ['k']], .num ['1'])])) none]) ∧
    (parse "if true \x7b x = 1 \x7d" =
      some [.ifStmt (.boolean true)
        (.block [.assign false (.ident ['x']) (.num ['1'])]) none]) :=
  ⟨rfl, rfl, rfl⟩

/-! ## Claim C5: the operator set and precedence order -/

/-- C5 counterexample: the claim says inputs with logical-or and
logical-and binary expressions parse; but no token of the grammar matches
`|` or `&`, so both canonical inputs fail to lex, and the
`binary_expression` rule defines no logical operator at all. -/
theorem c5_no_logical_operators :
    (parse "a || b" = none) ∧ (parse "a && b" = none) :=
  ⟨rfl, rfl⟩

/-- C5 amended: the `PREC` table fixes the strict order assignment <
logical-or < logical-and < equality < relational < sum < product < call,
but the grammar's ten binary operators use only the equality, relational,
sum and product levels: no logical-or or logical-and operator exists. -/
theorem c5_precedence_order :
    (PREC.ASSIGN < PREC.OR ∧ PREC.OR < PREC.AND ∧ PREC.AND < PREC.EQUALITY ∧
      PREC.EQUALITY < PREC.RELATIONAL ∧ PREC.RELATIONAL < PREC.SUM ∧
      PREC.SUM < PREC.PRODUCT ∧ PREC.PRODUCT < PREC.CALL) ∧
    (binOpPrec .eqeq = some PREC.EQUALITY ∧ binOpPrec .neq = some PREC.EQUALITY ∧
      binOpPrec .lt = some PREC.RELATIONAL ∧ binOpPrec .gt = some PREC.RELATIONAL ∧
      binOpPrec .le = some PREC.RELATIONAL ∧ binOpPrec .ge = some PREC.RELATIONAL ∧
      binOpPrec .plus = some PREC.SUM ∧ binOpPrec .minus = some PREC.SUM ∧
      binOpPrec .star = some PREC.PRODUCT ∧ binOpPrec .slash = some PREC.PRODUCT) ∧
    ∀ t p, binOpPrec t = some p → PREC.EQUALITY ≤ p ∧ p ≤ PREC.PRODUCT := by
  refine ⟨by decide, by decide, ?_⟩
  intro t p h
  cases t <;> simp [binOpPrec] at h <;> subst h <;> decide

theorem c5_precedence_order_witness :
    PREC.EQUALITY ≤ PREC.SUM ∧ PREC.SUM ≤ PREC.PRODUCT :=
  c5_precedence_order.2.2 .plus PREC.SUM rfl

/-! ## Claim C9: determinism -/

/-- C9: the parse pipeline is a pure function of the input text — the
whole embedding threads no state — so parsing the same string twice
yields structurally identical results. -/
theorem c9_determinism : ∀ s : String, parse s = parse s := fun _ => rfl

/-! ## Claim C8 counterexample -/

/-- C8 counterexample: `a / b` is a valid input with adjacent tokens `/`
and `b`; inserting the line comment `//c` (with its newline) between them,
immediately after the `/`, merges with the `/` into the line comment
`///c`, swallowing the operator and changing the tree shape from one
binary-expression statement to two expression statements. -/
theorem c8_comment_merge_counterexample :
    (parseChars ("a /".data ++ " b".data) =
      some [.exprStmt (.binary .slash (.ident ['a']) (.ident ['b']))]) ∧
    (parseChars ("a /".data ++ renderTrivia [.lineComment ['c']] ++ " b".data) =
      some [.exprStmt (.ident ['a']), .exprStmt (.ident ['b'])]) ∧
    (triviaWF (TriviaUnit.lineComment ['c']) = true) ∧
    parseChars ("a /".data ++ renderTrivia [.lineComment ['c']] ++ " b".data) ≠
      parseChars ("a /".data ++ " b".data) := by
  refine ⟨rfl, rfl, by decide, ?_⟩
  intro h
  rw [show parseChars ("a /".data ++ renderTrivia [.lineComment ['c']] ++ " b".data) =
      some [.exprStmt (.ident ['a']), .exprStmt (.ident ['b'])] from rfl] at h
  rw [show parseChars ("a /".data ++ " b".data) =
      some [.exprStmt (.binary .slash (.ident ['a']) (.ident ['b']))] from rfl] at h
  simp at h



/-! ## Trivia absorption: the lexer ignores leading trivia -/

theorem skipTriviaGo_ws {c : Char} {s : List Char} (h : wsChar c = true) :
    skipTriviaGo .top (c :: s) = skipTriviaGo .top s := by
  rw [skipTriviaGo.eq_def]
  try dsimp only
  rw [if_pos h]

theorem skipTriviaGo_line {content : List Char} (h : ∀ c ∈ content, c ≠ nl) :
    ∀ s, skipTriviaGo .line (content ++ nl :: s) = skipTriviaGo .top s := by
  induction content with
  | nil =>
    intro s
    rw [List.nil_append, skipTriviaGo.eq_def]
    try dsimp only
    rw [if_pos rfl]
  | cons c cs ih =>
    intro s
    rw [List.cons_append, skipTriviaGo.eq_def]
    try dsimp only
    rw [if_neg (h c (by simp))]
    exact ih (fun x hx => h x (by simp [hx])) s

theorem skipTriviaGo_block {content : List Char} (h : hasBlockEnd content = false) :
    ∀ s, skipTriviaGo .block (content ++ '*' :: '/' :: s) = skipTriviaGo .top s := by
  induction content with
  | nil =>
    intro s
    rw [List.nil_append, skipTriviaGo.eq_def]
    try dsimp only
    rw [if_pos rfl]
    try dsimp only
    rw [if_pos rfl]
  | cons c cs ih =>
    intro s
    match cs, h with
    | [], h =>
      by_cases hc : c = '*'
      · subst hc
        rw [List.cons_append, List.nil_append, skipTriviaGo.eq_def]
        try dsimp only
        rw [if_pos rfl]
        try dsimp only
        rw [if_neg (by decide)]
        rw [skipTriviaGo.eq_def]
        try dsimp only
        rw [if_pos rfl]
        try dsimp only
        rw [if_pos rfl]
      · rw [List.cons_append, List.nil_append, skipTriviaGo.eq_def]
        try dsimp only
        rw [if_neg hc]
        rw [skipTriviaGo.eq_def]
        try dsimp only
        rw [if_pos rfl]
        try dsimp only
        rw [if_pos rfl]
    | c2 :: cs2, h =>
      have htl : hasBlockEnd (c2 :: cs2) = false := by
        rw [hasBlockEnd] at h
        exact (Bool.or_eq_false_iff.mp h).2
      by_cases hc : c = '*'
      · subst hc
        have hc2 : ¬c2 = '/' := by
          rw [hasBlockEnd] at h
          rcases Bool.or_eq_false_iff.mp h with ⟨h1, _⟩
          intro hx
          subst hx
          simp at h1
        rw [List.cons_append, skipTriviaGo.eq_def]
        rw [show (c2 :: cs2) ++ '*' :: '/' :: s = c2 :: (cs2 ++ '*' :: '/' :: s) from rfl]
        try dsimp only
        rw [if_pos rfl]
        try dsimp only
        rw [if_neg hc2]
        rw [show c2 :: (cs2 ++ '*' :: '/' :: s) = (c2 :: cs2) ++ '*' :: '/' :: s from rfl]
        exact ih htl s
      · rw [List.cons_append, skipTriviaGo.eq_def]
        try dsimp only
        rw [if_neg hc]
        exact ih htl s

theorem skipTriviaGo_unit {u : TriviaUnit} (h : triviaWF u = true) (s : List Char) :
    skipTriviaGo .top (renderTriviaUnit u ++ s) = skipTriviaGo .top s := by
  match u with
  | .ws c =>
    rw [renderTriviaUnit]
    exact skipTriviaGo_ws (by simpa [triviaWF] using h)
  | .lineComment content =>
    rw [renderTriviaUnit]
    rw [show ('/' :: '/' :: (content ++ [nl])) ++ s = '/' :: '/' :: (content ++ nl :: s) by simp]
    rw [skipTriviaGo.eq_def]
    try dsimp only
    rw [if_neg (by decide), if_pos rfl]
    try dsimp only
    rw [if_pos rfl]
    refine skipTriviaGo_line ?_ s
    intro c hc
    simp only [triviaWF, List.all_eq_true] at h
    simpa using h c hc
  | .blockComment content =>
    rw [renderTriviaUnit]
    rw [show ('/' :: '*' :: (content ++ '*' :: '/' :: [])) ++ s =
      '/' :: '*' :: (content ++ '*' :: '/' :: s) by simp]
    rw [skipTriviaGo.eq_def]
    try dsimp only
    rw [if_neg (by decide), if_pos rfl]
    try dsimp only
    rw [if_neg (by decide), if_pos rfl]
    exact skipTriviaGo_block (by simpa [triviaWF] using h) s

theorem skipTriviaGo_absorb {us : List TriviaUnit} (h : ∀ u ∈ us, triviaWF u = true) :
    ∀ s, skipTriviaGo .top (renderTrivia us ++ s) = skipTriviaGo .top s := by
  induction us with
  | nil => intro s; rfl
  | cons u us ih =>
    intro s
    have he : renderTrivia (u :: us) = renderTriviaUnit u ++ renderTrivia us := rfl
    rw [he, List.append_assoc]
    rw [skipTriviaGo_unit (h u (by simp)) (renderTrivia us ++ s)]
    exact ih (fun v hv => h v (by simp [hv])) s

theorem tokenizeF_absorb {us : List TriviaUnit} (h : ∀ u ∈ us, triviaWF u = true)
    (f : Nat) (s : List Char) :
    tokenizeF f (renderTrivia us ++ s) = tokenizeF f s := by
  match f with
  | 0 => rfl
  | f + 1 =>
    rw [tokenizeF, tokenizeF, skipTriviaGo_absorb h s]


/-! ## Length bounds for the lexer, and fuel irrelevance -/

theorem dropWhile_le (p : Char → Bool) : ∀ l : List Char, (List.dropWhile p l).length ≤ l.length := by
  intro l
  induction l with
  | nil => simp
  | cons c r ih =>
    rw [List.dropWhile_cons]
    split
    · exact Nat.le_trans ih (Nat.le_succ _)
    · exact Nat.le_refl _

theorem skipTriviaGo_le :
    ∀ (n : Nat) (m : TMode) (s s2 : List Char), s.length ≤ n →
      skipTriviaGo m s = some s2 → s2.length ≤ s.length := by
  intro n
  induction n with
  | zero =>
    intro m s s2 hl h
    have hs : s = [] := List.length_eq_zero.mp (Nat.le_zero.mp hl)
    subst hs
    match m with
    | .top => cases h; exact Nat.le_refl _
    | .line => cases h; exact Nat.le_refl _
    | .block => exact absurd h (by simp [skipTriviaGo])
  | succ n ih =>
    intro m s s2 hl h
    match s with
    | [] =>
      match m with
      | .top => cases h; exact Nat.le_refl _
      | .line => cases h; exact Nat.le_refl _
      | .block => exact absurd h (by simp [skipTriviaGo])
    | c :: r =>
      have hr : r.length ≤ n := by
        simp only [List.length_cons] at hl
        omega
      match m with
      | .top =>
        rw [skipTriviaGo.eq_def] at h
        dsimp only at h
        split at h
        · exact Nat.le_trans (ih .top r s2 hr h) (Nat.le_succ _)
        · split at h
          · split at h
            · next c2 r2 =>
              have hr2 : r2.length ≤ n := by
                simp only [List.length_cons] at hr ⊢
                omega
              split at h
              · have := ih .line r2 s2 hr2 h
                simp only [List.length_cons]
                omega
              · split at h
                · have := ih .block r2 s2 hr2 h
                  simp only [List.length_cons]
                  omega
                · cases h
                  simp
            · cases h
              exact Nat.le_refl _
          · cases h
            exact Nat.le_refl _
      | .line =>
        rw [skipTriviaGo.eq_def] at h
        dsimp only at h
        split at h
        · exact Nat.le_trans (ih .top r s2 hr h) (Nat.le_succ _)
        · exact Nat.le_trans (ih .line r s2 hr h) (Nat.le_succ _)
      | .block =>
        rw [skipTriviaGo.eq_def] at h
        dsimp only at h
        split at h
        · split at h
          · next c2 r2 =>
            have hr2 : r2.length ≤ n := by
              simp only [List.length_cons] at hr ⊢
              omega
            split at h
            · have := ih .top r2 s2 hr2 h
              simp only [List.length_cons]
              omega
            · have := ih .block (c2 :: r2) s2 hr h
              simp only [List.length_cons] at this ⊢
              omega
          · exact absurd h (by simp)
        · exact Nat.le_trans (ih .block r s2 hr h) (Nat.le_succ _)

theorem lexStrGo_lt :
    ∀ (input : List Char) (m : SMode) (acc : List Char) (parts : List StrPart)
      (res : List StrPart) (r : List Char),
      lexStrGo m acc parts input = some (res, r) → r.length < input.length := by
  intro input
  induction input with
  | nil => intro m acc parts res r h; exact absurd h (by simp [lexStrGo])
  | cons c rest ih =>
    intro m acc parts res r h
    simp only [lexStrGo] at h
    match m with
    | SMode.interp =>
      simp only at h
      split at h
      · exact Nat.lt_trans (ih _ _ _ _ _ h) (Nat.lt_succ_self _)
      · exact Nat.lt_trans (ih _ _ _ _ _ h) (Nat.lt_succ_self _)
    | SMode.esc =>
      simp only at h
      split at h
      · exact absurd h (by simp)
      · exact Nat.lt_trans (ih _ _ _ _ _ h) (Nat.lt_succ_self _)
    | SMode.normal =>
      simp only at h
      split at h
      · cases h
        exact Nat.lt_succ_self _
      · split at h
        · exact Nat.lt_trans (ih _ _ _ _ _ h) (Nat.lt_succ_self _)
        · split at h
          · exact Nat.lt_trans (ih _ _ _ _ _ h) (Nat.lt_succ_self _)
          · exact Nat.lt_trans (ih _ _ _ _ _ h) (Nat.lt_succ_self _)

theorem lexSqGo_lt :
    ∀ (input : List Char) (esc : Bool) (acc : List Char) (parts : List StrPart)
      (res : List StrPart) (r : List Char),
      lexSqGo esc acc parts input = some (res, r) → r.length < input.length := by
  intro input
  induction input with
  | nil => intro esc acc parts res r h; exact absurd h (by simp [lexSqGo])
  | cons c rest ih =>
    intro esc acc parts res r h
    simp only [lexSqGo] at h
    split at h
    · split at h
      · exact absurd h (by simp)
      · exact Nat.lt_trans (ih _ _ _ _ _ h) (Nat.lt_succ_self _)
    · split at h
      · cases h
        exact Nat.lt_succ_self _
      · split at h
        · exact Nat.lt_trans (ih _ _ _ _ _ h) (Nat.lt_succ_self _)
        · exact Nat.lt_trans (ih _ _ _ _ _ h) (Nat.lt_succ_self _)

theorem dropExact_le :
    ∀ (p s r : List Char), dropExact p s = some r → r.length ≤ s.length := by
  intro p
  induction p with
  | nil =>
    intro s r h
    rw [dropExact] at h
    cases h
    exact Nat.le_refl _
  | cons c p ih =>
    intro s r h
    match s, h with
    | d :: s2, h =>
      rw [dropExact] at h
      split at h
      · exact Nat.le_trans (ih s2 r h) (Nat.le_succ _)
      · exact absurd h (by simp)

theorem lexPragma_le {cs : List Char} {t : Tok} {r : List Char}
    (h : lexPragma cs = some (t, r)) : r.length ≤ cs.length := by
  rw [lexPragma] at h
  split at h
  · next hd => cases h; exact dropExact_le _ _ _ hd
  · split at h
    · next hd => cases h; exact dropExact_le _ _ _ hd
    · split at h
      · next hd => cases h; exact dropExact_le _ _ _ hd
      · split at h
        · next hd => cases h; exact dropExact_le _ _ _ hd
        · exact absurd h (by simp)

theorem lexOp_le {c : Char} {cs : List Char} {t : Tok} {r : List Char}
    (h : lexOp c cs = some (t, r)) : r.length ≤ cs.length := by
  unfold lexOp at h
  split_ifs at h
  · split at h
    · split at h
      · cases h; exact Nat.le_succ _
      · cases h; exact Nat.le_refl _
    · cases h; exact Nat.le_refl _
  · split at h
    · split at h
      · cases h; exact Nat.le_succ _
      · exact absurd h (by simp)
    · exact absurd h (by simp)
  · split at h
    · split at h
      · cases h; exact Nat.le_succ _
      · cases h; exact Nat.le_refl _
    · cases h; exact Nat.le_refl _
  · split at h
    · split at h
      · cases h; exact Nat.le_succ _
      · cases h; exact Nat.le_refl _
    · cases h; exact Nat.le_refl _
  · split at h
    · cases h; exact Nat.le_refl _
    · exact absurd h (by simp)

theorem lexPunct_le {c : Char} {cs : List Char} {t : Tok} {r : List Char}
    (h : lexPunct c cs = some (t, r)) : r.length ≤ cs.length := by
  rw [lexPunct] at h
  split_ifs at h
  · cases h; exact Nat.le_refl _
  · cases h; exact Nat.le_refl _
  · exact lexOp_le h

theorem lexSym_le {c : Char} {cs : List Char} {t : Tok} {r : List Char}
    (h : lexSym c cs = some (t, r)) : r.length ≤ cs.length := by
  rw [lexSym] at h
  split_ifs at h
  · rw [lexStrTok] at h
    split at h
    · next ps r2 hgo =>
      cases h
      exact Nat.le_of_lt (lexStrGo_lt _ _ _ _ _ _ hgo)
    · exact absurd h (by simp)
  · rw [lexSqTok] at h
    split at h
    · next ps r2 hgo =>
      cases h
      exact Nat.le_of_lt (lexSqGo_lt _ _ _ _ _ _ hgo)
    · exact absurd h (by simp)
  · rw [lexAt] at h
    split at h
    · exact absurd h (by simp)
    · cases h
      exact dropWhile_le _ _
  · exact lexPragma_le h
  · exact lexPunct_le h

theorem lexTok_lt :
    ∀ (s : List Char) (t : Tok) (r : List Char), lexTok s = some (t, r) → r.length < s.length := by
  intro s t r h
  match s with
  | [] => exact absurd h (by simp [lexTok])
  | c :: cs =>
    rw [lexTok] at h
    split_ifs at h with h1 h2
    · rw [lexWord] at h
      cases h
      have : List.dropWhile identChar (c :: cs) = List.dropWhile identChar cs := by
        rw [List.dropWhile_cons, if_pos (by simp [identChar, h1])]
      rw [this]
      exact Nat.lt_succ_of_le (dropWhile_le _ _)
    · rw [lexNum] at h
      have hdw : List.dropWhile Char.isDigit (c :: cs) = List.dropWhile Char.isDigit cs := by
        rw [List.dropWhile_cons, if_pos h2]
      rw [hdw] at h
      split at h
      · next c2 r2 heq =>
        have hr2 : r2.length < cs.length + 1 := by
          have : (c2 :: r2).length ≤ cs.length := heq ▸ dropWhile_le _ _
          simp only [List.length_cons] at this
          omega
        split at h
        · split at h
          · cases h
            have : (c2 :: r2).length ≤ cs.length := heq ▸ dropWhile_le _ _
            simpa using Nat.lt_succ_of_le this
          · cases h
            have := dropWhile_le Char.isDigit r2
            simp only [List.length_cons]
            omega
        · cases h
          have : (c2 :: r2).length ≤ cs.length := heq ▸ dropWhile_le _ _
          simpa using Nat.lt_succ_of_le this
      · cases h
        simp
    · exact Nat.lt_succ_of_le (lexSym_le h)

/-- Tokenizing does not depend on the fuel, provided the fuel exceeds the
input length. -/
theorem tokenizeF_fuel :
    ∀ (f f2 : Nat) (s : List Char), s.length < f → s.length < f2 →
      tokenizeF f s = tokenizeF f2 s := by
  intro f
  induction f with
  | zero => intro f2 s h; exact absurd h (by omega)
  | succ f ih =>
    intro f2 s hf hf2
    match f2 with
    | 0 => exact absurd hf2 (by omega)
    | g + 1 =>
      rw [tokenizeF, tokenizeF]
      cases hskip : skipTriviaGo .top s with
      | none => rfl
      | some s3 =>
        have hs3 : s3.length ≤ s.length := skipTriviaGo_le s.length .top s s3 (Nat.le_refl _) hskip
        match s3, hs3 with
        | [], _ => rfl
        | c :: s4, hs3 =>
          dsimp only
          cases hlex : lexTok (c :: s4) with
          | none => rfl
          | some pr =>
            obtain ⟨t, r⟩ := pr
            dsimp only
            have hr : r.length < (c :: s4).length := lexTok_lt _ _ _ hlex
            have hrf : r.length < f := by
              simp only [List.length_cons] at hr hs3
              omega
            have hrg : r.length < g := by
              simp only [List.length_cons] at hr hs3
              omega
            rw [ih g r hrf hrg]


/-- C8 amended: inserting whitespace or self-delimited comments (a block
comment, or a line comment with its terminating newline) at a point where
the lexer begins a new token leaves both the token stream and the parse
tree unchanged, for any fuel; insertions that merge with the preceding
token text (as in the counterexample, a comment inserted immediately
after a `/` token) are excluded. -/
theorem c8_trivia_insertion (us : List TriviaUnit) (s : List Char) (f : Nat)
    (h : ∀ u ∈ us, triviaWF u = true) :
    (tokenizeF f (renderTrivia us ++ s) = tokenizeF f s) ∧
    parseChars (renderTrivia us ++ s) = parseChars s := by
  refine ⟨tokenizeF_absorb h f s, ?_⟩
  rw [parseChars, parseChars]
  have h1 : tokenizeF ((renderTrivia us ++ s).length + 1) (renderTrivia us ++ s)
      = tokenizeF ((renderTrivia us ++ s).length + 1) s := tokenizeF_absorb h _ s
  have h2 : tokenizeF ((renderTrivia us ++ s).length + 1) s = tokenizeF (s.length + 1) s := by
    apply tokenizeF_fuel
    · simp only [List.length_append]
      omega
    · omega
  rw [h1, h2]

theorem c8_trivia_insertion_witness :
    (tokenizeF 20 (renderTrivia [.ws ' ', .lineComment ['c'], .blockComment ['x']] ++
        "x = 1".data) = tokenizeF 20 "x = 1".data) ∧
    parseChars (renderTrivia [.ws ' ', .lineComment ['c'], .blockComment ['x']] ++
        "x = 1".data) = parseChars "x = 1".data :=
  c8_trivia_insertion [.ws ' ', .lineComment ['c'], .blockComment ['x']]
    "x = 1".data 20 (by decide)


/-! ## Claim C10: dictionary keys -/

theorem pragmaValue_ok {v : Tok} {e : Expr} (h : pragmaValue v = some e) : ExprKeysOK e := by
  cases v <;> simp [pragmaValue] at h <;> subst h <;> constructor

theorem keyExpr_ok {k : Tok} {ke : Expr} (h : keyExpr k = some ke) :
    KeyShape ke ∧ ExprKeysOK ke := by
  cases k <;> simp [keyExpr] at h <;> subst h
  · exact ⟨Or.inr ⟨_, rfl⟩, .ident⟩
  · exact ⟨Or.inl ⟨_, rfl⟩, .str⟩

theorem parseAtom_nil : ∀ f, parseAtom f [] = none := by
  intro f
  match f with
  | 0 => rfl
  | f + 1 => rfl

theorem parseExpr_nil : ∀ f m, parseExpr f m [] = none := by
  intro f m
  match f with
  | 0 => rfl
  | f + 1 =>
    rw [parseExpr, parseAtom_nil]

theorem parseExprStmt_nil : ∀ f, parseExprStmt f [] = none := by
  intro f
  match f with
  | 0 => rfl
  | f + 1 =>
    rw [parseExprStmt, parseExpr_nil]

theorem parseStmt_nil : ∀ f, parseStmt f [] = none := by
  intro f
  match f with
  | 0 => rfl
  | f + 1 =>
    rw [parseStmt.eq_def]
    dsimp only
    rw [parseExprStmt_nil]

theorem parseArgList_nil : ∀ f, parseArgList f [] = none := by
  intro f
  match f with
  | 0 => rfl
  | f + 1 =>
    rw [parseArgList, parseExpr_nil]

theorem parsePairList_nil : ∀ f, parsePairList f [] = none := by
  intro f
  match f with
  | 0 => rfl
  | f + 1 => rfl

/-- Every tree the parser builds satisfies the dictionary-key invariant:
one statement per parser entry point, by induction on the fuel. -/
theorem parser_keys_ok : ∀ f : Nat,
    (∀ ts l, parseProgram f ts = some l → ∀ st ∈ l, StmtKeysOK st) ∧
    (∀ ts l r, parseBlockBody f ts = some (l, r) → ∀ st ∈ l, StmtKeysOK st) ∧
    (∀ ts st r, parseStmt f ts = some (st, r) → StmtKeysOK st) ∧
    (∀ ts st r, parseExprStmt f ts = some (st, r) → StmtKeysOK st) ∧
    (∀ ts st r, parseRepeatBare f ts = some (st, r) → StmtKeysOK st) ∧
    (∀ ts st r, parseMenuNoTitle f ts = some (st, r) → StmtKeysOK st) ∧
    (∀ m ts e r, parseExpr f m ts = some (e, r) → ExprKeysOK e) ∧
    (∀ m acc ts e r, ExprKeysOK acc → climb f m acc ts = some (e, r) → ExprKeysOK e) ∧
    (∀ ts e r, parseAtom f ts = some (e, r) → ExprKeysOK e) ∧
    (∀ ts l r, parseArgs f ts = some (l, r) → ∀ e ∈ l, ExprKeysOK e) ∧
    (∀ ts l r, parseArgList f ts = some (l, r) → ∀ e ∈ l, ExprKeysOK e) ∧
    (∀ ts l r, parseDictPairs f ts = some (l, r) →
      ∀ p ∈ l, KeyShape p.1 ∧ ExprKeysOK p.1 ∧ ExprKeysOK p.2) ∧
    (∀ ts l r, parsePairList f ts = some (l, r) →
      ∀ p ∈ l, KeyShape p.1 ∧ ExprKeysOK p.1 ∧ ExprKeysOK p.2) := by
  intro f
  induction f with
  | zero =>
    refine ⟨?_, ?_, ?_, ?_, ?_, ?_, ?_, ?_, ?_, ?_, ?_, ?_, ?_⟩ <;> intro ts <;> intros <;>
      simp_all [parseProgram, parseBlockBody, parseStmt, parseExprStmt, parseRepeatBare,
        parseMenuNoTitle, parseExpr, climb, parseAtom,
        parseArgs, parseArgList, parseDictPairs, parsePairList]
  | succ f ih =>
    obtain ⟨ihProg, ihBlock, ihStmt, ihExprStmt, ihRepBare, ihMenuNT, ihExpr, ihClimb,
      ihAtom, ihArgs, ihArgList, ihDict, ihPair⟩ := ih
    refine ⟨?_, ?_, ?_, ?_, ?_, ?_, ?_, ?_, ?_, ?_, ?_, ?_, ?_⟩
    · -- parseProgram
      intro ts l h
      match ts with
      | [] =>
        rw [parseProgram] at h
        cases h
        simp
      | t :: ts2 =>
        rw [parseProgram.eq_def] at h
        try dsimp only at h
        split at h
        next st r hst =>
          split at h
          next l2 hl2 =>
            cases h
            intro x hx
            rcases List.mem_cons.mp hx with h1 | h1
            · subst h1
              exact ihStmt _ _ _ hst
            · exact ihProg _ _ hl2 x h1
          next => exact absurd h (by simp)
        next => exact absurd h (by simp)
    · -- parseBlockBody
      intro ts l r h
      rw [parseBlockBody.eq_def] at h
      split at h
      · exact absurd h (by simp)
      · cases h
        simp
      · rename_i g heq hne
        obtain rfl : g = f := by omega
        split at h
        next st r2 hst =>
          split at h
          next l2 r3 hl2 =>
            cases h
            intro x hx
            rcases List.mem_cons.mp hx with h1 | h1
            · subst h1
              exact ihStmt _ _ _ hst
            · exact ihBlock _ _ _ hl2 x h1
          next => exact absurd h (by simp)
        next => exact absurd h (by simp)
    · -- parseStmt
      intro ts st r h
      rw [parseStmt.eq_def] at h
      try dsimp only at h
      split at h
      · -- pragma
        split at h
        · split at h
          next e he =>
            cases h
            exact .pragma (pragmaValue_ok he)
          next => exact absurd h (by simp)
        · exact absurd h (by simp)
      · -- const
        split at h
        · split at h
          next v2 r3 hv =>
            cases h
            exact .assign .ident (ihExpr _ _ _ _ hv)
          next => exact absurd h (by simp)
        · split at h
          next v2 r3 hv =>
            cases h
            exact .assign .atVar (ihExpr _ _ _ _ hv)
          next => exact absurd h (by simp)
        · exact absurd h (by simp)
      · -- atVar
        split at h
        · cases h
          exact .decl .typeName
        · cases h
          exact .decl .ident
        · split at h
          next v2 r3 hv =>
            cases h
            exact .assign .atVar (ihExpr _ _ _ _ hv)
          next => exact absurd h (by simp)
        · exact ihExprStmt _ _ _ h
      · -- ident
        split at h
        · split at h
          next v2 r3 hv =>
            cases h
            exact .assign .ident (ihExpr _ _ _ _ hv)
          next => exact absurd h (by simp)
        · exact ihExprStmt _ _ _ h
      · -- if
        split at h
        next c r1 hc =>
          split at h
          next cons r2 hcons =>
            split at h
            next r3 =>
              split at h
              next alt r4 halt =>
                cases h
                exact .ifStmt (ihExpr _ _ _ _ hc) (ihStmt _ _ _ hcons)
                  (fun a ha => by cases ha; exact ihStmt _ _ _ halt)
              next => exact absurd h (by simp)
            next =>
              cases h
              exact .ifStmt (ihExpr _ _ _ _ hc) (ihStmt _ _ _ hcons) (fun a ha => by cases ha)
          next => exact absurd h (by simp)
        next => exact absurd h (by simp)
      · -- for
        split at h
        · split at h
          next it r3 hit =>
            split at h
            next b r4 hb =>
              cases h
              exact .forStmt (ihExpr _ _ _ _ hit) (ihStmt _ _ _ hb)
            next => exact absurd h (by simp)
          next => exact absurd h (by simp)
        · exact absurd h (by simp)
      · -- repeat
        split at h
        · split at h
          next c r3 hc =>
            split at h
            next b r4 hb =>
              cases h
              exact .repeatVar (ihExpr _ _ _ _ hc) (ihStmt _ _ _ hb)
            next => exact absurd h (by simp)
          next => exact absurd h (by simp)
        · split at h
          next c r1 hc =>
            split at h
            next b r2 hb =>
              cases h
              exact .repeatCount (ihExpr _ _ _ _ hc) (ihStmt _ _ _ hb)
            next => exact ihRepBare _ _ _ h
          next => exact ihRepBare _ _ _ h
      · -- menu
        split at h
        next tEx r1 ht =>
          split at h
          next r2 =>
            split at h
            next ss r3 hss =>
              cases h
              exact .menu (fun e he => by cases he; exact ihExpr _ _ _ _ ht)
                (.block (fun x hx => ihBlock _ _ _ hss x hx))
            next => exact absurd h (by simp)
          next => exact ihMenuNT _ _ _ h
        next => exact ihMenuNT _ _ _ h
      · -- item
        split at h
        next tEx r1 ht =>
          split at h
          next r2 =>
            split at h
            next b r3 hb =>
              cases h
              exact .item (ihExpr _ _ _ _ ht) (ihStmt _ _ _ hb)
            next => exact absurd h (by simp)
          next => exact absurd h (by simp)
        next => exact absurd h (by simp)
      · -- lbrace
        split at h
        next e r2 he =>
          cases h
          exact .exprStmt (ihExpr _ _ _ _ he)
        next =>
          split at h
          next ss r2 hss =>
            cases h
            exact .block (fun x hx => ihBlock _ _ _ hss x hx)
          next => exact absurd h (by simp)
      · -- catch-all
        exact ihExprStmt _ _ _ h
    · -- parseExprStmt
      intro ts st r h
      rw [parseExprStmt] at h
      split at h
      next e r2 he =>
        cases h
        exact .exprStmt (ihExpr _ _ _ _ he)
      next => exact absurd h (by simp)
    · -- parseRepeatBare
      intro ts st r h
      rw [parseRepeatBare] at h
      split at h
      next b r2 hb =>
        cases h
        exact .repeatBare (ihStmt _ _ _ hb)
      next => exact absurd h (by simp)
    · -- parseMenuNoTitle
      intro ts st r h
      rw [parseMenuNoTitle.eq_def] at h
      split at h
      · exact absurd h (by simp)
      · rename_i r2 g heq hne
        obtain rfl : g = f := by omega
        split at h
        next ss r3 hss =>
          cases h
          exact .menu (fun e he => by cases he) (.block (fun x hx => ihBlock _ _ _ hss x hx))
        next => exact absurd h (by simp)
      · exact absurd h (by simp)
    · -- parseExpr
      intro m ts e r h
      rw [parseExpr] at h
      split at h
      next a r2 ha => exact ihClimb _ _ _ _ _ (ihAtom _ _ _ ha) h
      next => exact absurd h (by simp)
    · -- climb
      intro m acc ts e r hacc h
      rw [climb.eq_def] at h
      try dsimp only at h
      split at h
      next op r2 =>
        split at h
        next p hp =>
          split at h
          · split at h
            next rhs r3 hrhs =>
              exact ihClimb _ _ _ _ _ (.binary hacc (ihExpr _ _ _ _ hrhs)) h
            next => exact absurd h (by simp)
          · cases h
            exact hacc
        next =>
          cases h
          exact hacc
      next =>
        cases h
        exact hacc
    · -- parseAtom
      intro ts e r h
      rw [parseAtom.eq_def] at h
      try dsimp only at h
      split at h
      · -- lparen
        split at h
        next e2 r1 he =>
          split at h
          next r2 =>
            cases h
            exact .paren (ihExpr _ _ _ _ he)
          next => exact absurd h (by simp)
        next => exact absurd h (by simp)
      · -- lbrace: dictionary
        split at h
        next ps r1 hps =>
          cases h
          have hd := ihDict _ _ _ hps
          exact .dict (fun p hp => (hd p hp).1) (fun p hp => (hd p hp).2.1)
            (fun p hp => (hd p hp).2.2)
        next => exact absurd h (by simp)
      · -- ident call
        split at h
        next args r1 hargs =>
          cases h
          exact .call .ident (fun e2 he2 => ihArgs _ _ _ hargs e2 he2)
        next => exact absurd h (by simp)
      · -- keyword call
        split at h
        next args r1 hargs =>
          cases h
          exact .call .keyword (fun e2 he2 => ihArgs _ _ _ hargs e2 he2)
        next => exact absurd h (by simp)
      · -- typeName call
        split at h
        next args r1 hargs =>
          cases h
          exact .call .typeName (fun e2 he2 => ihArgs _ _ _ hargs e2 he2)
        next => exact absurd h (by simp)
      · cases h; exact .ident
      · cases h; exact .atVar
      · cases h; exact .num
      · cases h; exact .str
      · cases h; exact .sqStr
      · cases h; exact .boolean
      · cases h; exact .boolean
      · cases h; exact .namedConst
      · cases h; exact .keyword
      · cases h; exact .typeName
      · exact absurd h (by simp)
    · -- parseArgs
      intro ts l r h
      rw [parseArgs.eq_def] at h
      split at h
      · exact absurd h (by simp)
      · cases h
        simp
      · rename_i g heq hne
        obtain rfl : g = f := by omega
        exact ihArgList _ _ _ h
    · -- parseArgList
      intro ts l r h
      rw [parseArgList] at h
      split at h
      next e2 r2 he =>
        split at h
        next r3 =>
          split at h
          next l2 r4 hl2 =>
            cases h
            intro x hx
            rcases List.mem_cons.mp hx with h1 | h1
            · subst h1
              exact ihExpr _ _ _ _ he
            · exact ihArgList _ _ _ hl2 x h1
          next => exact absurd h (by simp)
        next r3 =>
          cases h
          intro x hx
          rcases List.mem_singleton.mp hx with h1
          subst h1
          exact ihExpr _ _ _ _ he
        next => exact absurd h (by simp)
      next => exact absurd h (by simp)
    · -- parseDictPairs
      intro ts l r h
      rw [parseDictPairs.eq_def] at h
      split at h
      · exact absurd h (by simp)
      · cases h
        simp
      · rename_i g heq hne
        obtain rfl : g = f := by omega
        exact ihPair _ _ _ h
    · -- parsePairList
      intro ts l r h
      rw [parsePairList.eq_def] at h
      split at h
      · exact absurd h (by simp)
      case _ =>
        rename_i g k r0 heq
        obtain rfl : g = f := by omega
        split at h
        next ke hke =>
          split at h
          next v r1 hv =>
            split at h
            next r2 =>
              split at h
              next l2 r3 hl2 =>
                cases h
                intro p hp
                rcases List.mem_cons.mp hp with h1 | h1
                · subst h1
                  obtain ⟨hk1, hk2⟩ := keyExpr_ok hke
                  exact ⟨hk1, hk2, ihExpr _ _ _ _ hv⟩
                · exact ihPair _ _ _ hl2 p h1
              next => exact absurd h (by simp)
            next r2 =>
              cases h
              intro p hp
              rcases List.mem_singleton.mp hp with h1
              subst h1
              obtain ⟨hk1, hk2⟩ := keyExpr_ok hke
              exact ⟨hk1, hk2, ihExpr _ _ _ _ hv⟩
            next => exact absurd h (by simp)
          next => exact absurd h (by simp)
        next => exact absurd h (by simp)
      case _ => exact absurd h (by simp)


/-- C10: in every parsed tree, the key of every dictionary pair — at any
nesting depth — is either a double-quoted string node or a bare
identifier node; no input produces a pair whose key is a single-quoted
string, a number, or any other expression form. -/
theorem c10_dict_keys : ∀ (s : String) (l : List Stmt), parse s = some l →
    ∀ st ∈ l, StmtKeysOK st := by
  intro s l h st hst
  rw [parse, parseChars] at h
  split at h
  next ts htok =>
    rw [parseToks] at h
    exact (parser_keys_ok (10 * ts.length + 10)).1 ts l h st hst
  next => exact absurd h (by simp)

theorem c10_dict_keys_witness :
    StmtKeysOK (.assign false (.ident ['x'])
      (.dict [(.str [.content ['k']], .num ['1'])])) :=
  c10_dict_keys "x = \x7b \"k\": 1 \x7d"
    [.assign false (.ident ['x']) (.dict [(.str [.content ['k']], .num ['1'])])]
    rfl _ (by simp)


end Cherri
